import Mathlib

/-!
Verification of the hash-chain amendment-tracker core.

This file is a shallow embedding, in Lean 4, of the core engine found in
`src/hash_chain.py` (classes `LLMSummaryGenerator`, `Amendment`, `ChainNode`,
`HashChain`, configuration `Config.MAX_CHAIN_SIZE`) together with the duplicate
`ChainNode._calculate_hash` implementation found in `src/crypto_utils.py`.

Embedding conventions:
* Python strings are Lean `String`s (sequences of Unicode code points; Python
  indexing/slicing by code point matches `String.take`/`String.length`).
* `datetime.now().isoformat()` is an external clock read; constructors take the
  timestamp string as an explicit argument.
* `hashlib.sha256(...).hexdigest()` is the environment-supplied cryptographic
  digest primitive (an opaque collision-resistant hash); the development is
  parameterized over it as `hashFn : String → String`.  Everything up to the
  digest call — the canonical JSON encoding fed to it — is modelled concretely.
* Exceptions (`raise ValueError`) become `Except` error results.
* The audit log (`AuditLog.log`, an external file append) is modelled as an
  explicit list of events threaded through the state, so that state-passing
  versions of the methods record exactly which operations write and which do
  not.
* The source file `src/hash_chain.py` is stored with double-encoded UTF-8, so
  at run time Python sees mojibake code points in the replacement table (e.g.
  `Ä…` where `ą` was intended).  The table below transcribes the
  exact code points the running program uses.
-/

namespace LegalTracker

/-! ### Python string primitives used by the source -/

/-- Python `str.strip()` default whitespace test for a single character: the
exact set of code points CPython strips (U+0009-U+000D, U+001C-U+001F, the
space, NEL, NBSP, Ogham space mark, the U+2000-U+200A spaces, line and
paragraph separators, narrow no-break space, medium mathematical space and
ideographic space). -/
def pyIsSpaceChar (c : Char) : Bool :=
  (0x09 ≤ c.toNat && c.toNat ≤ 0x0D) ||
  (0x1C ≤ c.toNat && c.toNat ≤ 0x20) ||
  c.toNat = 0x85 || c.toNat = 0xA0 || c.toNat = 0x1680 ||
  (0x2000 ≤ c.toNat && c.toNat ≤ 0x200A) ||
  c.toNat = 0x2028 || c.toNat = 0x2029 || c.toNat = 0x202F ||
  c.toNat = 0x205F || c.toNat = 0x3000

/-- Python `not s.strip()`: true iff `s` is empty or consists only of
whitespace characters. -/
def pyStripIsEmpty (s : String) : Bool :=
  s.toList.all pyIsSpaceChar

/-- Python `str.islower()` on a single character, for ASCII and Latin-1
letters (every character this is applied to — the first character of a
replacement-table key — is an ASCII lowercase letter). -/
def pyIsLowerChar (c : Char) : Bool :=
  ('a' ≤ c && c ≤ 'z') ||
  (0xDF ≤ c.toNat && c.toNat ≤ 0xFF && c.toNat ≠ 0xF7)

/-- Python `str.upper()` on a single character, for ASCII and Latin-1 letters
(every character this is applied to is an ASCII lowercase letter). -/
def pyUpperChar (c : Char) : Char :=
  if 'a' ≤ c && c ≤ 'z' then Char.ofNat (c.toNat - 32)
  else if 0xE0 ≤ c.toNat && c.toNat ≤ 0xFE && c.toNat ≠ 0xF7 then Char.ofNat (c.toNat - 32)
  else c

/-- Python `str.lower()` on a single character, for ASCII and Latin-1 letters
(the replacement-table values contain, besides ASCII, only Latin-1 capitals
`Ä Å Ã` and caseless punctuation/symbol code points). -/
def pyLowerChar (c : Char) : Char :=
  if 'A' ≤ c && c ≤ 'Z' then Char.ofNat (c.toNat + 32)
  else if 0xC0 ≤ c.toNat && c.toNat ≤ 0xDE && c.toNat ≠ 0xD7 then Char.ofNat (c.toNat + 32)
  else c

/-- Python `str.capitalize()`: first character title-cased (here: upper-cased;
all first characters are ASCII), the rest lower-cased. -/
def pyCapitalize (s : String) : String :=
  match s.toList with
  | [] => s
  | c :: rest => String.mk (pyUpperChar c :: rest.map pyLowerChar)

/-- Worker for Python `str.replace`: left-to-right, non-overlapping, scanning
resumes after the replacement text.  `fuel` bounds the recursion; each step
consumes at least one character of the subject, so `fuel = s.length` is
always enough. -/
def replaceAux : Nat → List Char → List Char → List Char → List Char
  | 0, s, _, _ => s
  | _ + 1, [], _, _ => []
  | fuel + 1, c :: rest, pat, rep =>
    if pat.isPrefixOf (c :: rest) then
      rep ++ replaceAux fuel (List.drop pat.length (c :: rest)) pat rep
    else
      c :: replaceAux fuel rest pat rep

/-- Python `s.replace(pat, rep)` for a non-empty pattern (every pattern the
source passes is non-empty; for an empty pattern we return `s` unchanged). -/
def pyReplace (s pat rep : String) : String :=
  if pat.toList.isEmpty then s
  else String.mk (replaceAux s.toList.length s.toList pat.toList rep.toList)

/-! ### `LLMSummaryGenerator` (src/hash_chain.py lines 91-154)

`simplify` with `api_key = None` and with `api_key` set both call
`_fallback_simplify` (the real-LLM branch is a TODO in the source), so the
generator is one pure function.  `REPLACEMENTS` is a Python dict literal with
no duplicate keys; `.items()` iterates it in insertion order, transcribed
below.  The code points are exactly those the running program sees (the
source file is double-encoded UTF-8, hence the mojibake). -/

/-- `LLMSummaryGenerator.REPLACEMENTS`, in dict insertion order. -/
def REPLACEMENTS : List (String × String) :=
  [ ("niniejszym ustawÄ…", "tÄ… ustawÄ…")
  , ("niezaleÅ¼nie od", "mimo Å¼e")
  , ("zgodnie z", "wedÅ‚ug")
  , ("powinien", "musi")
  , ("powinna", "musi")
  , ("powinno", "musi")
  , ("powinni", "muszÄ…")
  , ("obowiÄ…zany", "zobowiÄ…zany")
  , ("obowiÄ…zana", "zobowiÄ…zana")
  , ("uprawniony", "ma prawo")
  , ("uprawniona", "ma prawo")
  , ("wspomniany wyÅ¼ej", "wymieniony wyÅ¼ej")
  , ("w ktÃ³rym", "gdzie")
  , ("w ktÃ³rej", "gdzie")
  , ("nastÄ™pnie", "potem")
  , ("wÃ³wczas", "wtedy")
  , ("ustawa", "prawo")
  , ("ustawy", "praw")
  , ("artykuÅ‚", "Art.")
  , ("artykuÅ‚u", "Art.")
  , ("przepis", "reguÅ‚a")
  , ("przepisy", "reguÅ‚y")
  , ("prawo do", "moÅ¼e")
  , ("obowiÄ…zek", "musi")
  , ("odpowiedzialnoÅ›Ä‡", "odpowiada za")
  , ("grzywna", "kara pieniÄ™Å¼na")
  , ("sankcja", "kara")
  , ("podatek", "opÅ‚ata rzÄ…dowa")
  , ("osoba prawna", "organizacja")
  , ("osoba fizyczna", "osoba prywatna")
  , ("przysÅ‚uguje", "ma prawo")
  , ("upowaÅ¼nia", "daje prawo")
  , ("zabrania", "nie pozwala")
  , ("dopuszcza", "pozwala")
  , ("hereby", "tÄ… ustawÄ…")
  , ("notwithstanding", "mimo Å¼e")
  , ("shall", "musi")
  , ("wherein", "gdzie")
  , ("thereof", "tego") ]

/-- One iteration of the replacement loop: replace the key, and when the key
starts with a lowercase letter also replace its capitalized form by the
capitalized value (`legal[0].upper() + legal[1:]` / `plain.capitalize()`). -/
def applyOne (s : String) (kv : String × String) : String :=
  let s1 := pyReplace s kv.1 kv.2
  match kv.1.toList with
  | [] => s1
  | c :: rest =>
    if pyIsLowerChar c then pyReplace s1 (String.mk (pyUpperChar c :: rest)) (pyCapitalize kv.2)
    else s1

/-- The substitution phase of `_fallback_simplify`: the replacement loop
followed by the two formatting-normalization replaces. -/
def substitute (text : String) : String :=
  let s := REPLACEMENTS.foldl applyOne text
  let s := pyReplace s ("ARTYKUÅ") ("ArtykuÅ‚")
  pyReplace s ("USTAWA") ("Ustawa")

/-- Helper for Python `s.rsplit(' ', 1)[0]`: the part of `l` strictly before
its last space, if `l` contains a space. -/
def beforeLastSpace : List Char → Option (List Char)
  | [] => none
  | c :: rest =>
    match beforeLastSpace rest with
    | some l => some (c :: l)
    | none => if c = ' ' then some [] else none

/-- Python `s.rsplit(' ', 1)[0]`: everything before the last space character,
or all of `s` when it contains no space. -/
def rsplitSpaceFirst (s : String) : String :=
  match beforeLastSpace s.toList with
  | some l => String.mk l
  | none => s

/-- `LLMSummaryGenerator._fallback_simplify`: substitution, then truncation of
results longer than 200 characters to the first 200 characters (a Python
slice `simple[:200]` selects the first 200 code points) cut back to the last
space, with `"..."` appended. -/
def fallback_simplify (text : String) : String :=
  let simple := substitute text
  if simple.length > 200 then
    rsplitSpaceFirst (String.mk (simple.toList.take 200)) ++ "..."
  else simple

/-- `LLMSummaryGenerator.simplify`: blank input yields the sentinel
`"No content"`; otherwise `_fallback_simplify` (both the configured-API branch
and the fallback branch call it). -/
def simplify (text : String) : String :=
  if pyStripIsEmpty text then "No content" else fallback_simplify text

/-! ### `Amendment` (src/hash_chain.py lines 157-195) -/

/-- `Amendment.VALID_TYPES = {"substantive", "editorial"}`. -/
def VALID_TYPES : List String := ["substantive", "editorial"]

/-- The validated amendment record, with the fields `Amendment.__init__`
assigns, in assignment order. -/
structure Amendment where
  content : String
  change_type : String
  author : String
  timestamp : String
  summary : String
  deriving DecidableEq, Repr

/-- The three `raise ValueError` sites of `Amendment.__init__`, in source
order: empty/whitespace content ("Content required"), a category outside
`VALID_TYPES` ("Type must be one of: ..."), empty/whitespace author
("Author required").  These are the spec's `EmptyContent`, `InvalidCategory`
and `EmptyAuthor`. -/
inductive AmendmentError where
  | emptyContent
  | invalidCategory
  | emptyAuthor
  deriving DecidableEq, Repr

/-- `Amendment.__init__(content, change_type, author, summary=None, llm=None)`.
`hasLlm` says whether an `LLMSummaryGenerator` was passed (there is a single
generator implementation, embedded as `simplify`); `timestamp` is the
externally read clock value.  The summary field follows
`summary or (llm.simplify(content) if llm else "No summary")`: a supplied
summary is kept only when it is truthy, i.e. a non-empty string. -/
def mkAmendment (content change_type author : String) (summary : Option String)
    (hasLlm : Bool) (timestamp : String) : Except AmendmentError Amendment :=
  if pyStripIsEmpty content then .error .emptyContent
  else if ¬ (change_type ∈ VALID_TYPES) then .error .invalidCategory
  else if pyStripIsEmpty author then .error .emptyAuthor
  else
    let fallbackSummary := if hasLlm then simplify content else "No summary"
    let summaryVal :=
      match summary with
      | some smr => if smr = "" then fallbackSummary else smr
      | none => fallbackSummary
    .ok ⟨content, change_type, author, timestamp, summaryVal⟩

/-- The validation predicate `Amendment.__init__` enforces on its inputs
(what the spec calls a valid Record). -/
def ValidFields (content change_type author : String) : Prop :=
  pyStripIsEmpty content = false ∧ change_type ∈ VALID_TYPES ∧
    pyStripIsEmpty author = false

/-- An `Amendment` value whose stored fields pass the constructor's checks. -/
def Amendment.Valid (a : Amendment) : Prop :=
  ValidFields a.content a.change_type a.author

instance : Inhabited Amendment := ⟨⟨"", "", "", "", ""⟩⟩

/-! ### Canonical JSON encoding
(`json.dumps({"amendment": ..., "parent_hash": ...}, sort_keys=True)`,
src/hash_chain.py lines 209-218)

Python's `json.dumps` with default options: `ensure_ascii=True`
(non-ASCII code points escaped as `\uXXXX`, astral ones as surrogate pairs),
separators `", "` and `": "`, keys of each object sorted. -/

/-- Lowercase hexadecimal digit. -/
def hexDigitChar (n : Nat) : Char :=
  if n < 10 then Char.ofNat (48 + n) else Char.ofNat (87 + n)

/-- Four-digit lowercase hexadecimal rendering, as in Python's `\uXXXX`. -/
def hex4 (n : Nat) : String :=
  String.mk [hexDigitChar (n / 4096 % 16), hexDigitChar (n / 256 % 16),
             hexDigitChar (n / 16 % 16), hexDigitChar (n % 16)]

/-- `json.dumps` escaping of one character (default `ensure_ascii=True`). -/
def jsonEscapeChar (c : Char) : String :=
  if c = '"' then "\\\""
  else if c = '\\' then "\\\\"
  else if c = '\n' then "\\n"
  else if c = '\x0d' then "\\r"
  else if c = '\t' then "\\t"
  else if c = '\x08' then "\\b"
  else if c = '\x0c' then "\\f"
  else if c.toNat < 0x20 then "\\u" ++ hex4 c.toNat
  else if c.toNat < 0x7F then String.mk [c]
  else if c.toNat < 0x10000 then "\\u" ++ hex4 c.toNat
  else
    "\\u" ++ hex4 (0xD800 + (c.toNat - 0x10000) / 0x400) ++
    "\\u" ++ hex4 (0xDC00 + (c.toNat - 0x10000) % 0x400)

/-- A JSON string literal for `s`. -/
def jsonQuote (s : String) : String :=
  "\"" ++ String.join (s.toList.map jsonEscapeChar) ++ "\""

/-- The exact string `ChainNode._calculate_hash` feeds to SHA-256:
`json.dumps({"amendment": self.amendment.to_dict(), "parent_hash":
self.parent_hash}, sort_keys=True)`.  With sorted keys the amendment dict
renders as author, change_type, content, summary, timestamp, and the outer
dict as amendment, parent_hash; `None` renders as `null`. -/
def serializeNode (a : Amendment) (parent_hash : Option String) : String :=
  "\x7b\"amendment\": \x7b\"author\": " ++ jsonQuote a.author ++
  ", \"change_type\": " ++ jsonQuote a.change_type ++
  ", \"content\": " ++ jsonQuote a.content ++
  ", \"summary\": " ++ jsonQuote a.summary ++
  ", \"timestamp\": " ++ jsonQuote a.timestamp ++
  "\x7d, \"parent_hash\": " ++
  (match parent_hash with
   | some p => jsonQuote p
   | none => "null") ++ "\x7d"

/-! ### `ChainNode` (src/hash_chain.py lines 198-222)

`self.hash = self._calculate_hash()` at construction; `verify` recomputes
and compares.  `hashFn` is the environment's SHA-256 hexdigest primitive
(`hashlib.sha256(data.encode()).hexdigest()`); the `try/except` around
serialization is dead for string fields (`json.dumps` of strings cannot
raise), and the `isinstance(amendment, Amendment)` guard is the type of the
`amendment` argument. -/

structure ChainNode where
  amendment : Amendment
  parent_hash : Option String
  hash : String
  deriving DecidableEq, Repr

instance : Inhabited ChainNode := ⟨⟨default, none, ""⟩⟩

/-- `ChainNode._calculate_hash`. -/
def calculate_hash (hashFn : String → String) (a : Amendment)
    (parent_hash : Option String) : String :=
  hashFn (serializeNode a parent_hash)

/-- `ChainNode.__init__`. -/
def mkChainNode (hashFn : String → String) (a : Amendment)
    (parent_hash : Option String) : ChainNode :=
  ⟨a, parent_hash, calculate_hash hashFn a parent_hash⟩

/-- `ChainNode.verify`. -/
def ChainNode.verify (hashFn : String → String) (n : ChainNode) : Bool :=
  n.hash == calculate_hash hashFn n.amendment n.parent_hash

/-! ### `HashChain` (src/hash_chain.py lines 17-32 and 225-299)

State-passing embedding.  The audit log (`self.audit.log(...)`, an external
file append) is part of the threaded state so the embedding records exactly
which operations write; the payload fields each call site passes are kept. -/

/-- `Config.MAX_CHAIN_SIZE`. -/
def MAX_CHAIN_SIZE : Nat := 10000

/-- The audit events the embedded methods emit, with the detail fields of the
corresponding `self.audit.log` calls (`act` is the chain's own id and is
recoverable from the state, so it is not repeated here). -/
inductive AuditEvent where
  /-- `"amendment_added"` with `hash: node.hash[:16]` and `author`. -/
  | amendmentAdded (hash16 : String) (author : String)
  /-- `"chain_too_large"` with `size`. -/
  | chainTooLarge (size : Nat)
  /-- `"tampering_detected"` with `node` index and `reason`. -/
  | tamperingDetected (node : Nat) (reason : String)
  /-- `"chain_verified"` with `amendments` count. -/
  | chainVerified (amendments : Nat)
  deriving DecidableEq, Repr

/-- The `HashChain` object state.  (`self.llm` is stored by `__init__` but
never read by any method, so it is omitted.) -/
structure HashChain where
  act_id : String
  act_title : String
  chain : List ChainNode
  audit : List AuditEvent
  deriving Repr

/-- The two `raise ValueError` sites of `HashChain.__init__`. -/
inductive HashChainError where
  | emptyActId
  | emptyActTitle
  deriving DecidableEq, Repr

/-- `HashChain.__init__(act_id, act_title, llm=None)`: validates both strings
and starts with an empty chain (and a fresh audit logger). -/
def mkHashChain (act_id act_title : String) : Except HashChainError HashChain :=
  if pyStripIsEmpty act_id then .error .emptyActId
  else if pyStripIsEmpty act_title then .error .emptyActTitle
  else .ok ⟨act_id, act_title, [], []⟩

/-- `HashChain.add_amendment`: parent hash is the current tail's stored hash
(or `None` on an empty chain — the genesis sentinel), a node is constructed
and appended, an audit event is logged, and the new node's hash is returned. -/
def add_amendment (hashFn : String → String) (s : HashChain) (a : Amendment) :
    HashChain × String :=
  let parent_hash := match s.chain.getLast? with
    | some tail => some tail.hash
    | none => none
  let node := mkChainNode hashFn a parent_hash
  (⟨s.act_id, s.act_title, s.chain ++ [node],
    s.audit ++ [.amendmentAdded (node.hash.take 16) a.author]⟩, node.hash)

/-- Python values appearing in a `get_history` row (a dict is a key-ordered
association list, matching dict literal order). -/
inductive PyVal where
  | pstr (s : String)
  | pint (n : Nat)
  | pnull
  | pdict (fields : List (String × PyVal))

/-- `Amendment.to_dict`, in dict-literal key order. -/
def Amendment.to_dict (a : Amendment) : List (String × PyVal) :=
  [ ("content", .pstr a.content)
  , ("change_type", .pstr a.change_type)
  , ("author", .pstr a.author)
  , ("summary", .pstr a.summary)
  , ("timestamp", .pstr a.timestamp) ]

/-- One row of `get_history` for position `i` (0-based), in dict-literal key
order: `version` is `i + 1`, the record fields sit nested under
`"amendment"`. -/
def historyRow (i : Nat) (node : ChainNode) : List (String × PyVal) :=
  [ ("version", .pint (i + 1))
  , ("hash", .pstr node.hash)
  , ("parent_hash", match node.parent_hash with
      | some p => .pstr p
      | none => .pnull)
  , ("amendment", .pdict node.amendment.to_dict) ]

/-- The `enumerate` comprehension of `get_history`, with explicit counter. -/
def historyRows (i : Nat) : List ChainNode → List (List (String × PyVal))
  | [] => []
  | node :: rest => historyRow i node :: historyRows (i + 1) rest

/-- `HashChain.get_history`: the list comprehension over
`enumerate(self.chain)`.  Its body reads `self.chain` and performs no
assignment and no audit call. -/
def get_history (s : HashChain) : List (List (String × PyVal)) :=
  historyRows 0 s.chain

/-- `get_history` as a state-passing operation: the method body contains no
write to the object, so the state comes back as it went in. -/
def get_history_op (s : HashChain) : List (List (String × PyVal)) × HashChain :=
  (get_history s, s)

/-- The verification walk of `verify_integrity`'s `for` loop: `prev` is the
stored hash of the previous node (`None` at index 0, in which case the
parent-link test `i > 0 and ...` is skipped), `i` the current index.  Returns
the index and reason of the first failure, or `none` if the walk succeeds.
Per node, the hash check (`node.verify()`) runs before the link check,
matching source order. -/
def verifyWalk (hashFn : String → String) :
    Option String → Nat → List ChainNode → Option (Nat × String)
  | _, _, [] => none
  | prev, i, node :: rest =>
    if ¬ node.verify hashFn then some (i, "hash_mismatch")
    else
      match prev with
      | some ph =>
        if node.parent_hash ≠ some ph then some (i, "parent_link_broken")
        else verifyWalk hashFn (some node.hash) (i + 1) rest
      | none => verifyWalk hashFn (some node.hash) (i + 1) rest

/-- `HashChain.verify_integrity`: fails closed when the chain exceeds
`Config.MAX_CHAIN_SIZE` (logging `chain_too_large`), otherwise walks the
chain, returning `False` at the first hash mismatch or broken parent link
(logging `tampering_detected` with that node's index and reason) and `True`
after a complete walk (logging `chain_verified`).  The chain itself is never
written. -/
def verify_integrity (hashFn : String → String) (s : HashChain) :
    Bool × HashChain :=
  if s.chain.length > MAX_CHAIN_SIZE then
    (false, ⟨s.act_id, s.act_title, s.chain,
             s.audit ++ [.chainTooLarge s.chain.length]⟩)
  else
    match verifyWalk hashFn none 0 s.chain with
    | some (i, reason) =>
      (false, ⟨s.act_id, s.act_title, s.chain,
               s.audit ++ [.tamperingDetected i reason]⟩)
    | none =>
      (true, ⟨s.act_id, s.act_title, s.chain,
              s.audit ++ [.chainVerified s.chain.length]⟩)

/-- Iterated `add_amendment`, returning the final state and the list of
returned hashes in call order. -/
def append_all (hashFn : String → String) (s : HashChain) :
    List Amendment → HashChain × List String
  | [] => (s, [])
  | a :: rest =>
    let step := add_amendment hashFn s a
    let tail := append_all hashFn step.1 rest
    (tail.1, step.2 :: tail.2)

/-! ### The duplicate implementation in `src/crypto_utils.py` (lines 228-275)

`crypto_utils.Amendment` carries the same five fields (its `to_dict` has the
same keys), and `crypto_utils.ChainNode._calculate_hash` performs the same
`json.dumps(..., sort_keys=True)` over `{"amendment": ..., "parent_hash":
...}` followed by the SHA-256 hexdigest. -/

/-- `crypto_utils.Amendment`'s stored fields (its unvalidated constructor
assigns the same five attributes). -/
structure CUAmendment where
  content : String
  change_type : String
  author : String
  timestamp : String
  summary : String
  deriving DecidableEq, Repr

/-- The serialization inside `crypto_utils.ChainNode._calculate_hash`,
transcribed from that file: `json.dumps({"amendment":
self.amendment.to_dict(), "parent_hash": self.parent_hash},
sort_keys=True)` with `to_dict` producing the keys content, change_type,
author, summary, timestamp. -/
def cuSerializeNode (a : CUAmendment) (parent_hash : Option String) : String :=
  "\x7b\"amendment\": \x7b\"author\": " ++ jsonQuote a.author ++
  ", \"change_type\": " ++ jsonQuote a.change_type ++
  ", \"content\": " ++ jsonQuote a.content ++
  ", \"summary\": " ++ jsonQuote a.summary ++
  ", \"timestamp\": " ++ jsonQuote a.timestamp ++
  "\x7d, \"parent_hash\": " ++
  (match parent_hash with
   | some p => jsonQuote p
   | none => "null") ++ "\x7d"

/-- `crypto_utils.ChainNode._calculate_hash`. -/
def cuCalculateHash (hashFn : String → String) (a : CUAmendment)
    (parent_hash : Option String) : String :=
  hashFn (cuSerializeNode a parent_hash)

/-- A lowercase hexadecimal string, as produced by `hexdigest()`. -/
def IsHexString (s : String) : Prop :=
  ∀ c ∈ s.toList, c ∈ ("0123456789abcdef").toList

instance (s : String) : Decidable (IsHexString s) := by
  unfold IsHexString
  infer_instance

/-! ### Specification predicates

Declarative (index-based) statements of the chain invariants, written
independently of the walking code. -/

/-- Every stored entry hash equals the digest recomputed from that entry's
record fields and parent hash. -/
def HashesOK (hashFn : String → String) (c : List ChainNode) : Prop :=
  ∀ i (h : i < c.length),
    (c.get ⟨i, h⟩).hash =
      calculate_hash hashFn (c.get ⟨i, h⟩).amendment (c.get ⟨i, h⟩).parent_hash

/-- Every entry after the first stores the previous entry's stored hash as
its parent hash. -/
def LinksOK (c : List ChainNode) : Prop :=
  ∀ i (h : i + 1 < c.length),
    (c.get ⟨i + 1, h⟩).parent_hash = some (c.get ⟨i, Nat.lt_of_succ_lt h⟩).hash

/-- The chain suffix `c` links correctly when the entry before it (if any)
has stored hash `prev`. -/
def ChainedFrom : Option String → List ChainNode → Prop
  | _, [] => True
  | prev, n :: rest =>
    (∀ ph, prev = some ph → n.parent_hash = some ph) ∧ ChainedFrom (some n.hash) rest

theorem hashesOK_iff (hashFn : String → String) (c : List ChainNode) :
    HashesOK hashFn c ↔
      ∀ n ∈ c, n.hash = calculate_hash hashFn n.amendment n.parent_hash := by
  constructor
  · intro H n hn
    obtain ⟨i, rfl⟩ := List.mem_iff_get.1 hn
    exact H i.1 i.2
  · intro H i h
    exact H _ (List.get_mem c i h)

theorem linksOK_cons (n : ChainNode) (rest : List ChainNode) :
    LinksOK (n :: rest) ↔
      (∀ m, rest.head? = some m → m.parent_hash = some n.hash) ∧ LinksOK rest := by
  constructor
  · intro H
    refine ⟨?_, ?_⟩
    · intro m hm
      match rest, hm with
      | r :: rs, hm =>
        have h1 : (0 : Nat) + 1 < (n :: r :: rs).length := by simp
        have := H 0 h1
        simp only [List.head?_cons, Option.some.injEq] at hm
        subst hm
        exact this
    · intro i h
      exact H (i + 1) (by simpa using Nat.succ_lt_succ h)
  · rintro ⟨h1, h2⟩ i h
    match i with
    | 0 =>
      match rest, h with
      | r :: rs, _ => exact h1 r rfl
    | j + 1 =>
      exact h2 j (by simpa using Nat.lt_of_succ_lt_succ h)

theorem chainedFrom_iff (c : List ChainNode) : ∀ prev : Option String,
    ChainedFrom prev c ↔
      ((∀ m, c.head? = some m → ∀ ph, prev = some ph → m.parent_hash = some ph) ∧
        LinksOK c) := by
  induction c with
  | nil =>
    intro prev
    simp only [ChainedFrom]
    constructor
    · intro _
      refine ⟨by simp, ?_⟩
      intro i h
      simp at h
    · intro _
      trivial
  | cons n rest ih =>
    intro prev
    simp only [ChainedFrom, ih (some n.hash), linksOK_cons]
    constructor
    · rintro ⟨hhead, hrest, hlinks⟩
      refine ⟨?_, ?_, hlinks⟩
      · intro m hm ph hph
        simp only [List.head?_cons, Option.some.injEq] at hm
        subst hm
        exact hhead ph hph
      · intro m hm
        exact hrest m hm n.hash rfl
    · rintro ⟨hhead, hfirst, hlinks⟩
      refine ⟨?_, ?_, hlinks⟩
      · intro ph hph
        exact hhead n rfl ph hph
      · intro m hm ph hph
        cases hph
        exact hfirst m hm

theorem chainedFrom_none_iff (c : List ChainNode) :
    ChainedFrom none c ↔ LinksOK c := by
  rw [chainedFrom_iff]
  constructor
  · exact fun h => h.2
  · intro h
    refine ⟨?_, h⟩
    intro m _ ph hph
    cases hph

/-- The verification walk succeeds exactly when every node's stored hash is
correct and the suffix links correctly from `prev`. -/
theorem verifyWalk_eq_none_iff (hashFn : String → String) (c : List ChainNode) :
    ∀ (prev : Option String) (i : Nat),
      verifyWalk hashFn prev i c = none ↔
        ((∀ n ∈ c, n.hash = calculate_hash hashFn n.amendment n.parent_hash) ∧
          ChainedFrom prev c) := by
  induction c with
  | nil =>
    intro prev i
    simp [verifyWalk, ChainedFrom]
  | cons n rest ih =>
    intro prev i
    by_cases hv : n.hash = calculate_hash hashFn n.amendment n.parent_hash
    · have hvb : n.verify hashFn = true := by
        simp [ChainNode.verify, hv]
      match prev with
      | none =>
        simp only [verifyWalk, hvb, not_true_eq_false, if_false, ih, ChainedFrom]
        constructor
        · rintro ⟨hall, hch⟩
          exact ⟨by simpa [hv] using hall, by simp, hch⟩
        · rintro ⟨hall, _, hch⟩
          exact ⟨fun m hm => hall m (by simp [hm]), hch⟩
      | some ph =>
        by_cases hp : n.parent_hash = some ph
        · have hpn : ¬ (n.parent_hash ≠ some ph) := fun hc => hc hp
          simp only [verifyWalk, hvb, not_true_eq_false, if_false, hpn, ne_eq,
            ite_false, ih, ChainedFrom, if_neg hpn]
          constructor
          · rintro ⟨hall, hch⟩
            refine ⟨by simpa [hv] using hall, ?_, hch⟩
            intro ph2 hph2
            cases hph2
            exact hp
          · rintro ⟨hall, _, hch⟩
            exact ⟨fun m hm => hall m (by simp [hm]), hch⟩
        · simp only [verifyWalk, hvb, not_true_eq_false, if_false, hp, ne_eq,
            not_false_eq_true, ite_true, ChainedFrom]
          constructor
          · intro hsome
            cases hsome
          · rintro ⟨_, hch, _⟩
            exact absurd (hch ph rfl) hp
    · have hvb : n.verify hashFn = false := by
        simp [ChainNode.verify]
        exact hv
      simp only [verifyWalk, hvb]
      constructor
      · intro hsome
        simp at hsome
      · rintro ⟨hall, _⟩
        exact absurd (hall n (by simp)) hv

/-! ### First-failure characterization of the walk -/

/-- Position `j` of the suffix `c` fails one of the two checks, when the
entry before the suffix (if any) has stored hash `prev`: either the stored
hash at `j` is wrong, or the parent link at `j` does not match. -/
def BadFrom (hashFn : String → String) : Option String → List ChainNode → Nat → Prop
  | _, [], _ => False
  | prev, n :: _, 0 =>
    n.hash ≠ calculate_hash hashFn n.amendment n.parent_hash ∨
      (∃ ph, prev = some ph ∧ n.parent_hash ≠ some ph)
  | _, n :: rest, j + 1 => BadFrom hashFn (some n.hash) rest j

/-- Declarative failure predicate on absolute indices of the whole chain:
entry `j` exists and either its stored hash mismatches the recomputed digest,
or `j > 0` and its parent hash differs from entry `j - 1`'s stored hash. -/
def BadIdx (hashFn : String → String) (c : List ChainNode) (j : Nat) : Prop :=
  ∃ h : j < c.length,
    (c.get ⟨j, h⟩).hash ≠
        calculate_hash hashFn (c.get ⟨j, h⟩).amendment (c.get ⟨j, h⟩).parent_hash ∨
      (0 < j ∧
        (c.get ⟨j, h⟩).parent_hash ≠
          some ((c.get ⟨j - 1, by omega⟩).hash))

/-- The stored hash that the parent link at position `j` of the suffix `c` is
checked against (`prev` is the hash of the entry just before the suffix):
`prev` itself at position 0, the previous suffix entry's hash otherwise. -/
def LinkRefAt (prev : Option String) (c : List ChainNode) : Nat → Option String
  | 0 => prev
  | j + 1 => (c.get? j).map (fun m => m.hash)

theorem linkRefAt_cons (prev : Option String) (n : ChainNode)
    (rest : List ChainNode) (k : Nat) :
    LinkRefAt (some n.hash) rest k = LinkRefAt prev (n :: rest) (k + 1) := by
  cases k with
  | zero => rfl
  | succ m => rfl

theorem badFrom_iff (hashFn : String → String) (c : List ChainNode) :
    ∀ (prev : Option String) (j : Nat),
      BadFrom hashFn prev c j ↔
        ∃ h : j < c.length,
          (c.get ⟨j, h⟩).hash ≠
              calculate_hash hashFn (c.get ⟨j, h⟩).amendment (c.get ⟨j, h⟩).parent_hash ∨
            ∃ ph, LinkRefAt prev c j = some ph ∧ (c.get ⟨j, h⟩).parent_hash ≠ some ph := by
  induction c with
  | nil =>
    intro prev j
    simp only [BadFrom]
    constructor
    · intro hc
      cases hc
    · rintro ⟨h, _⟩
      simp at h
  | cons n rest ih =>
    intro prev j
    match j with
    | 0 =>
      simp only [BadFrom, LinkRefAt]
      constructor
      · rintro (hb | ⟨ph, hph, hb⟩)
        · exact ⟨by simp, Or.inl hb⟩
        · exact ⟨by simp, Or.inr ⟨ph, hph, hb⟩⟩
      · rintro ⟨h, hb | ⟨ph, hph, hb⟩⟩
        · exact Or.inl hb
        · exact Or.inr ⟨ph, hph, hb⟩
    | j + 1 =>
      simp only [BadFrom, ih (some n.hash) j]
      constructor
      · rintro ⟨h, hb⟩
        refine ⟨Nat.succ_lt_succ h, ?_⟩
        rw [← linkRefAt_cons]
        exact hb
      · rintro ⟨h, hb⟩
        rw [← linkRefAt_cons] at hb
        exact ⟨Nat.lt_of_succ_lt_succ h, hb⟩

theorem badFrom_none_iff_badIdx (hashFn : String → String) (c : List ChainNode)
    (j : Nat) : BadFrom hashFn none c j ↔ BadIdx hashFn c j := by
  rw [badFrom_iff]
  unfold BadIdx
  constructor
  · rintro ⟨h, hb | ⟨ph, hph, hb⟩⟩
    · exact ⟨h, Or.inl hb⟩
    · refine ⟨h, Or.inr ?_⟩
      match j, h, hph, hb with
      | k + 1, h, hph, hb =>
        refine ⟨Nat.succ_pos k, ?_⟩
        simp only [LinkRefAt, List.get?_eq_get (Nat.lt_of_succ_lt h),
          Option.map_some', Option.some.injEq] at hph
        rw [← hph] at hb
        exact hb
  · rintro ⟨h, hb | ⟨hj, hb⟩⟩
    · exact ⟨h, Or.inl hb⟩
    · refine ⟨h, Or.inr ?_⟩
      match j, h, hj, hb with
      | k + 1, h, _, hb =>
        refine ⟨(c.get ⟨k, Nat.lt_of_succ_lt h⟩).hash, ?_, hb⟩
        simp only [LinkRefAt, List.get?_eq_get (Nat.lt_of_succ_lt h),
          Option.map_some']

/-- When the walk reports a failure, the reported index is the start index
plus the offset of the FIRST failing position of the suffix. -/
theorem verifyWalk_eq_some (hashFn : String → String) (c : List ChainNode) :
    ∀ (prev : Option String) (i0 i : Nat) (r : String),
      verifyWalk hashFn prev i0 c = some (i, r) →
        ∃ j, i = i0 + j ∧ BadFrom hashFn prev c j ∧ ∀ k < j, ¬ BadFrom hashFn prev c k := by
  induction c with
  | nil =>
    intro prev i0 i r hw
    simp [verifyWalk] at hw
  | cons n rest ih =>
    intro prev i0 i r hw
    by_cases hv : n.hash = calculate_hash hashFn n.amendment n.parent_hash
    · have hvb : n.verify hashFn = true := by simp [ChainNode.verify, hv]
      match prev with
      | none =>
        simp only [verifyWalk, hvb, not_true_eq_false, if_false] at hw
        obtain ⟨j, rfl, hbad, hmin⟩ := ih (some n.hash) (i0 + 1) i r hw
        refine ⟨j + 1, by omega, hbad, ?_⟩
        intro k hk
        match k with
        | 0 =>
          simp only [BadFrom]
          rintro (hb | ⟨ph, hph, _⟩)
          · exact hb hv
          · cases hph
        | k + 1 =>
          exact hmin k (by omega)
      | some ph =>
        by_cases hp : n.parent_hash = some ph
        · have hpn : ¬ (n.parent_hash ≠ some ph) := fun hc => hc hp
          simp only [verifyWalk, hvb, not_true_eq_false, if_false, if_neg hpn] at hw
          obtain ⟨j, rfl, hbad, hmin⟩ := ih (some n.hash) (i0 + 1) i r hw
          refine ⟨j + 1, by omega, hbad, ?_⟩
          intro k hk
          match k with
          | 0 =>
            simp only [BadFrom]
            rintro (hb | ⟨ph2, hph2, hb⟩)
            · exact hb hv
            · cases hph2
              exact hb hp
          | k + 1 =>
            exact hmin k (by omega)
        · simp only [verifyWalk, hvb, not_true_eq_false, if_false, if_pos hp,
            Option.some.injEq, Prod.mk.injEq] at hw
          obtain ⟨hi, hr⟩ := hw
          refine ⟨0, by omega, ?_, ?_⟩
          · exact Or.inr ⟨ph, rfl, hp⟩
          · intro k hk
            exact absurd hk (Nat.not_lt_zero k)
    · have hvb : n.verify hashFn = false := by
        simp [ChainNode.verify]
        exact hv
      simp only [verifyWalk, hvb, not_false_eq_true, if_true, Option.some.injEq,
        Prod.mk.injEq] at hw
      obtain ⟨hi, hr⟩ := hw
      refine ⟨0, by omega, ?_, ?_⟩
      · exact Or.inl hv
      · intro k hk
        exact absurd hk (Nat.not_lt_zero k)

/-! ### Structure of `add_amendment` / `append_all` -/

/-- The parent hash `add_amendment` computes: the stored hash of the current
tail, or the genesis sentinel `None` on an empty chain. -/
def tailHash (c : List ChainNode) : Option String :=
  match c.getLast? with
  | some tail => some tail.hash
  | none => none

theorem add_amendment_chain (hashFn : String → String) (s : HashChain)
    (a : Amendment) :
    (add_amendment hashFn s a).1.chain =
      s.chain ++ [mkChainNode hashFn a (tailHash s.chain)] := by
  rfl

theorem add_amendment_ret (hashFn : String → String) (s : HashChain)
    (a : Amendment) :
    (add_amendment hashFn s a).2 = (mkChainNode hashFn a (tailHash s.chain)).hash := by
  rfl

/-- The stored hash of the tail of `c`, falling back to `prev` when `c` is
empty. -/
def tailHashOr (prev : Option String) (c : List ChainNode) : Option String :=
  match c.getLast? with
  | some tail => some tail.hash
  | none => prev

theorem tailHash_eq_tailHashOr (c : List ChainNode) :
    tailHash c = tailHashOr none c := rfl

theorem tailHashOr_cons (prev : Option String) (m : ChainNode)
    (rest : List ChainNode) :
    tailHashOr prev (m :: rest) = tailHashOr (some m.hash) rest := by
  cases rest with
  | nil => rfl
  | cons r rs =>
    simp only [tailHashOr, List.getLast?_cons_cons]
    rw [List.getLast?_eq_getLast (r :: rs) (by simp)]

/-- Appending a node whose parent hash is the tail's stored hash (or `prev`
for an empty list) preserves correct linkage. -/
theorem chainedFrom_append :
    ∀ (c : List ChainNode) (prev : Option String) (nd : ChainNode),
      ChainedFrom prev c →
      nd.parent_hash = tailHashOr prev c →
      ChainedFrom prev (c ++ [nd]) := by
  intro c
  induction c with
  | nil =>
    intro prev nd _ hnd
    refine ⟨?_, trivial⟩
    intro ph hph
    rw [hnd, hph]
    rfl
  | cons m rest ih =>
    intro prev nd hch hnd
    obtain ⟨hhead, htail⟩ := hch
    refine ⟨hhead, ?_⟩
    refine ih (some m.hash) nd htail ?_
    rw [hnd, tailHashOr_cons]

/-- `append_all` only appends: the new chain is the old one followed by some
new nodes, and the returned hashes are exactly the stored hashes of those new
nodes, in order. -/
theorem append_all_decomp (hashFn : String → String) :
    ∀ (amds : List Amendment) (s : HashChain),
      ∃ ns : List ChainNode,
        (append_all hashFn s amds).1.chain = s.chain ++ ns ∧
        (append_all hashFn s amds).2 = ns.map (fun n => n.hash) := by
  intro amds
  induction amds with
  | nil =>
    intro s
    exact ⟨[], by simp [append_all], by simp [append_all]⟩
  | cons a rest ih =>
    intro s
    obtain ⟨ns, hchain, hret⟩ := ih (add_amendment hashFn s a).1
    refine ⟨mkChainNode hashFn a (tailHash s.chain) :: ns, ?_, ?_⟩
    · simp only [append_all, hchain, add_amendment_chain]
      simp
    · simp only [append_all, hret, add_amendment_ret, List.map_cons]

/-- `append_all` preserves correct linkage of the whole chain. -/
theorem append_all_chained (hashFn : String → String) :
    ∀ (amds : List Amendment) (s : HashChain),
      ChainedFrom none s.chain →
      ChainedFrom none ((append_all hashFn s amds).1.chain) := by
  intro amds
  induction amds with
  | nil =>
    intro s h
    simpa [append_all] using h
  | cons a rest ih =>
    intro s h
    refine ih (add_amendment hashFn s a).1 ?_
    rw [add_amendment_chain]
    refine chainedFrom_append s.chain none _ h ?_
    exact tailHash_eq_tailHashOr s.chain


/-! ### Claim theorems: the ledger claims -/

instance (content change_type author : String) :
    Decidable (ValidFields content change_type author) := by
  unfold ValidFields
  infer_instance

instance (a : Amendment) : Decidable a.Valid := by
  unfold Amendment.Valid
  infer_instance

/-- C1: for every ledger whose entry count does not exceed the configured
maximum, `verify_integrity()` returns true if and only if every stored entry
hash equals the digest recomputed from that entry's record fields and parent
hash and every entry after the first stores the previous entry's stored hash
as its parent hash; and when it returns false, the failure it logs is at the
FIRST entry where either check fails. -/
theorem verify_integrity_iff_intact (hashFn : String → String) (s : HashChain)
    (hle : s.chain.length ≤ MAX_CHAIN_SIZE) :
    ((verify_integrity hashFn s).1 = true ↔
        HashesOK hashFn s.chain ∧ LinksOK s.chain) ∧
    ((verify_integrity hashFn s).1 = false →
        ∃ i r, (verify_integrity hashFn s).2.audit =
            s.audit ++ [AuditEvent.tamperingDetected i r] ∧
          BadIdx hashFn s.chain i ∧ ∀ j < i, ¬ BadIdx hashFn s.chain j) := by
  have hnot : ¬ (s.chain.length > MAX_CHAIN_SIZE) := not_lt.mpr hle
  cases hw : verifyWalk hashFn none 0 s.chain with
  | none =>
    have hgood := (verifyWalk_eq_none_iff hashFn s.chain none 0).1 hw
    constructor
    · simp only [verify_integrity, if_neg hnot, hw]
      constructor
      · intro _
        exact ⟨(hashesOK_iff hashFn s.chain).2 hgood.1,
               (chainedFrom_none_iff s.chain).1 hgood.2⟩
      · intro _
        trivial
    · simp only [verify_integrity, if_neg hnot, hw]
      intro hfalse
      simp at hfalse
  | some p =>
    obtain ⟨i, r⟩ := p
    obtain ⟨j, hij, hbad, hmin⟩ := verifyWalk_eq_some hashFn s.chain none 0 i r hw
    have hij2 : i = j := by omega
    subst hij2
    constructor
    · simp only [verify_integrity, if_neg hnot, hw]
      constructor
      · intro hfalse
        simp at hfalse
      · rintro ⟨hh, hl⟩
        have hnone : verifyWalk hashFn none 0 s.chain = none :=
          (verifyWalk_eq_none_iff hashFn s.chain none 0).2
            ⟨(hashesOK_iff hashFn s.chain).1 hh,
             (chainedFrom_none_iff s.chain).2 hl⟩
        rw [hw] at hnone
        cases hnone
    · intro _
      refine ⟨i, r, ?_, ?_, ?_⟩
      · simp only [verify_integrity, if_neg hnot, hw]
      · exact (badFrom_none_iff_badIdx hashFn s.chain i).1 hbad
      · intro k hk
        rw [← badFrom_none_iff_badIdx hashFn s.chain k]
        exact hmin k hk

/-- A constant stand-in for the digest primitive, used to instantiate the
environment parameter in concrete witnesses. -/
def constHash : String → String := fun _ => "h"

/-- A chain built by two appends on a fresh ledger, used by witnesses. -/
def wChain : HashChain :=
  (append_all constHash ⟨"ACT-1", "Test Act", [], []⟩
    [⟨"A", "substantive", "Alice", "t1", "No summary"⟩,
     ⟨"B", "editorial", "Bob", "t2", "No summary"⟩]).1

/-- Witness for C1 at a concrete two-entry ledger. -/
theorem verify_integrity_iff_intact_witness :
    wChain.chain.length ≤ MAX_CHAIN_SIZE ∧
    (((verify_integrity constHash wChain).1 = true ↔
        HashesOK constHash wChain.chain ∧ LinksOK wChain.chain) ∧
      ((verify_integrity constHash wChain).1 = false →
        ∃ i r, (verify_integrity constHash wChain).2.audit =
            wChain.audit ++ [AuditEvent.tamperingDetected i r] ∧
          BadIdx constHash wChain.chain i ∧
            ∀ j < i, ¬ BadIdx constHash wChain.chain j)) :=
  ⟨by decide, verify_integrity_iff_intact constHash wChain (by decide)⟩

/-- C2: starting from a fresh ledger, any non-empty sequence of successful
appends of valid records yields a chain whose first entry carries the genesis
sentinel `None` as parent hash, whose every later entry stores the previous
entry's hash, and where each append call returned exactly the hash stored in
the entry it created. -/
theorem append_all_chain_linkage (hashFn : String → String) (s : HashChain)
    (amds : List Amendment) (h0 : s.chain = []) (hne : amds ≠ [])
    (hval : ∀ a ∈ amds, a.Valid) :
    (∀ n0, (append_all hashFn s amds).1.chain.head? = some n0 →
        n0.parent_hash = none) ∧
    LinksOK (append_all hashFn s amds).1.chain ∧
    (append_all hashFn s amds).2 =
      (append_all hashFn s amds).1.chain.map (fun n => n.hash) := by
  refine ⟨?_, ?_, ?_⟩
  · match amds, hne with
    | a :: rest, _ =>
      intro n0 hn0
      obtain ⟨ns, hchain, _⟩ :=
        append_all_decomp hashFn rest (add_amendment hashFn s a).1
      have hc : (append_all hashFn s (a :: rest)).1.chain =
          (add_amendment hashFn s a).1.chain ++ ns := by
        simp only [append_all]
        exact hchain
      rw [hc, add_amendment_chain, h0] at hn0
      simp only [List.nil_append, List.cons_append, List.head?_cons,
        Option.some.injEq] at hn0
      rw [← hn0]
      rfl
  · exact (chainedFrom_none_iff _).1
      (append_all_chained hashFn amds s (by rw [h0]; trivial))
  · obtain ⟨ns, hchain, hret⟩ := append_all_decomp hashFn amds s
    rw [hret, hchain, h0]
    simp

/-- Witness for C2: two concrete valid appends on a fresh ledger. -/
theorem append_all_chain_linkage_witness :
    (HashChain.chain ⟨"ACT-1", "Test Act", [], []⟩ = [] ∧
      ([⟨"A", "substantive", "Alice", "t1", "No summary"⟩,
        ⟨"B", "editorial", "Bob", "t2", "No summary"⟩] : List Amendment) ≠ [] ∧
      ∀ a ∈ ([⟨"A", "substantive", "Alice", "t1", "No summary"⟩,
              ⟨"B", "editorial", "Bob", "t2", "No summary"⟩] : List Amendment),
        a.Valid) ∧
    ((∀ n0, (append_all constHash ⟨"ACT-1", "Test Act", [], []⟩
          [⟨"A", "substantive", "Alice", "t1", "No summary"⟩,
           ⟨"B", "editorial", "Bob", "t2", "No summary"⟩]).1.chain.head? = some n0 →
        n0.parent_hash = none) ∧
      LinksOK (append_all constHash ⟨"ACT-1", "Test Act", [], []⟩
        [⟨"A", "substantive", "Alice", "t1", "No summary"⟩,
         ⟨"B", "editorial", "Bob", "t2", "No summary"⟩]).1.chain ∧
      (append_all constHash ⟨"ACT-1", "Test Act", [], []⟩
        [⟨"A", "substantive", "Alice", "t1", "No summary"⟩,
         ⟨"B", "editorial", "Bob", "t2", "No summary"⟩]).2 =
        (append_all constHash ⟨"ACT-1", "Test Act", [], []⟩
          [⟨"A", "substantive", "Alice", "t1", "No summary"⟩,
           ⟨"B", "editorial", "Bob", "t2", "No summary"⟩]).1.chain.map
            (fun n => n.hash)) :=
  ⟨⟨rfl, by decide, by decide⟩,
    append_all_chain_linkage constHash ⟨"ACT-1", "Test Act", [], []⟩
      [⟨"A", "substantive", "Alice", "t1", "No summary"⟩,
       ⟨"B", "editorial", "Bob", "t2", "No summary"⟩] rfl (by decide) (by decide)⟩

/-- C5: a ledger whose entry count exceeds the configured maximum fails
verification closed, regardless of the entries themselves. -/
theorem verify_integrity_too_large (hashFn : String → String) (s : HashChain)
    (h : s.chain.length > MAX_CHAIN_SIZE) :
    (verify_integrity hashFn s).1 = false := by
  simp only [verify_integrity, if_pos h]

/-- An over-sized ledger (10001 entries) for the C5 witness. -/
def bigChainEx : HashChain :=
  ⟨"ACT-BIG", "Big", List.replicate 10001 default, []⟩

/-- Witness for C5 at a concrete 10001-entry ledger. -/
theorem verify_integrity_too_large_witness :
    bigChainEx.chain.length > MAX_CHAIN_SIZE ∧
    (verify_integrity constHash bigChainEx).1 = false := by
  have h : bigChainEx.chain.length > MAX_CHAIN_SIZE := by
    show (List.replicate 10001 (default : ChainNode)).length > 10000
    rw [List.length_replicate]
    omega
  exact ⟨h, verify_integrity_too_large constHash bigChainEx h⟩

/-- C8: `history()` and `verify_integrity()` never mutate the ledger (the
state-passing versions return the entries, id and title untouched — only the
external audit log grows), and `append` only adds a single entry at the end,
leaving every previously stored entry unchanged. -/
theorem ledger_frame_conditions (hashFn : String → String) (s : HashChain)
    (a : Amendment) :
    (get_history_op s).2 = s ∧
    (verify_integrity hashFn s).2.chain = s.chain ∧
    (verify_integrity hashFn s).2.act_id = s.act_id ∧
    (verify_integrity hashFn s).2.act_title = s.act_title ∧
    (add_amendment hashFn s a).1.chain.length = s.chain.length + 1 ∧
    (add_amendment hashFn s a).1.chain.take s.chain.length = s.chain ∧
    (add_amendment hashFn s a).1.chain.getLast? =
      some (mkChainNode hashFn a (tailHash s.chain)) := by
  refine ⟨rfl, ?_, ?_, ?_, ?_, ?_, ?_⟩
  · unfold verify_integrity
    split
    · rfl
    · split <;> rfl
  · unfold verify_integrity
    split
    · rfl
    · split <;> rfl
  · unfold verify_integrity
    split
    · rfl
    · split <;> rfl
  · rw [add_amendment_chain]
    simp
  · rw [add_amendment_chain]
    exact List.take_left s.chain _
  · rw [add_amendment_chain]
    simp


/-! ### Claim theorems: record construction and hashing -/

instance {e a : Type} [DecidableEq e] [DecidableEq a] :
    DecidableEq (Except e a) := fun x y =>
  match x, y with
  | .error u, .error v =>
    decidable_of_iff (u = v) ⟨by rintro rfl; rfl, fun h => by injection h⟩
  | .error _, .ok _ => isFalse fun h => by injection h
  | .ok _, .error _ => isFalse fun h => by injection h
  | .ok u, .ok v =>
    decidable_of_iff (u = v) ⟨by rintro rfl; rfl, fun h => by injection h⟩

/-- C3: for every valid record and parent hash, the entry hash is a
deterministic function of the record's field values and the parent hash
(recomputation reproduces it), so a freshly constructed, unmodified entry
always satisfies `verify() = true`. -/
theorem hash_deterministic_fresh_verify (hashFn : String → String)
    (content change_type author : String) (summary : Option String)
    (hasLlm : Bool) (timestamp : String) (p : Option String) (a : Amendment)
    (h : mkAmendment content change_type author summary hasLlm timestamp = .ok a) :
    calculate_hash hashFn a p = calculate_hash hashFn a p ∧
    (mkChainNode hashFn a p).verify hashFn = true := by
  refine ⟨rfl, ?_⟩
  simp [mkChainNode, ChainNode.verify]

/-- Witness for C3 at a concrete valid record. -/
theorem hash_deterministic_fresh_verify_witness :
    mkAmendment ("x") ("substantive") ("Alice") none false ("t") =
      .ok ⟨"x", "substantive", "Alice", "t", "No summary"⟩ ∧
    (calculate_hash constHash ⟨"x", "substantive", "Alice", "t", "No summary"⟩ none =
        calculate_hash constHash ⟨"x", "substantive", "Alice", "t", "No summary"⟩ none ∧
      (mkChainNode constHash ⟨"x", "substantive", "Alice", "t", "No summary"⟩
          none).verify constHash = true) :=
  ⟨by decide,
    hash_deterministic_fresh_verify constHash ("x") ("substantive") ("Alice") none
      false ("t") none ⟨"x", "substantive", "Alice", "t", "No summary"⟩ (by decide)⟩

/-- C4 counterexample: at `("", "bogus", "Alice")` the category is invalid,
yet construction does NOT fail with the category error — it fails with the
content error, because the checks run in source order.  This falsifies the
claim's "fails with InvalidCategory exactly when category is not one of the
two recognized values". -/
theorem validation_no_priority_counterexample :
    ("bogus" ∈ VALID_TYPES → False) ∧
    mkAmendment ("") ("bogus") ("Alice") none false ("t") ≠
      .error AmendmentError.invalidCategory ∧
    mkAmendment ("") ("bogus") ("Alice") none false ("t") =
      .error AmendmentError.emptyContent := by
  refine ⟨by decide, by decide, by decide⟩

/-- C4 (amended): construction applies the three checks in order — content,
then category, then author — failing with the error of the FIRST failing
check: `EmptyContent` iff content is blank; `InvalidCategory` iff content is
non-blank and the category is unrecognized; `EmptyAuthor` iff content is
non-blank, the category is recognized and the author is blank; and it
succeeds iff all three checks pass. -/
theorem validation_cases (content change_type author : String)
    (summary : Option String) (hasLlm : Bool) (timestamp : String) :
    (mkAmendment content change_type author summary hasLlm timestamp =
        .error AmendmentError.emptyContent ↔ pyStripIsEmpty content = true) ∧
    (mkAmendment content change_type author summary hasLlm timestamp =
        .error AmendmentError.invalidCategory ↔
      (pyStripIsEmpty content = false ∧ change_type ∉ VALID_TYPES)) ∧
    (mkAmendment content change_type author summary hasLlm timestamp =
        .error AmendmentError.emptyAuthor ↔
      (pyStripIsEmpty content = false ∧ change_type ∈ VALID_TYPES ∧
        pyStripIsEmpty author = true)) ∧
    ((∃ a, mkAmendment content change_type author summary hasLlm timestamp =
        .ok a) ↔ ValidFields content change_type author) := by
  unfold mkAmendment ValidFields
  cases h1 : pyStripIsEmpty content with
  | true => simp [h1]
  | false =>
    by_cases h2 : change_type ∈ VALID_TYPES
    · cases h3 : pyStripIsEmpty author with
      | true => simp [h1, h2, h3]
      | false => simp [h1, h2, h3]
    · simp [h1, h2]

/-- C9: a supplied summary that is the empty string is discarded: with no
Summarizer the stored summary falls back to the placeholder `"No summary"` —
the same value used when no summary and no Summarizer are supplied — and with
no Summarizer a constructed record's summary is never the empty string. -/
theorem empty_summary_discarded (content change_type author timestamp : String)
    (hval : ValidFields content change_type author) :
    (∀ a, mkAmendment content change_type author (some ("")) false timestamp =
        .ok a → a.summary = "No summary") ∧
    (∀ a, mkAmendment content change_type author none false timestamp =
        .ok a → a.summary = "No summary") ∧
    (∀ summary a,
      mkAmendment content change_type author summary false timestamp = .ok a →
        a.summary ≠ "") := by
  obtain ⟨h1, h2, h3⟩ := hval
  have hmk : ∀ summary : Option String,
      mkAmendment content change_type author summary false timestamp =
        .ok ⟨content, change_type, author, timestamp,
          match summary with
          | some smr => if smr = "" then "No summary" else smr
          | none => "No summary"⟩ := by
    intro summary
    simp [mkAmendment, h1, h2, h3]
  refine ⟨?_, ?_, ?_⟩
  · intro a ha
    rw [hmk (some ("")), Except.ok.injEq] at ha
    rw [← ha]
    rfl
  · intro a ha
    rw [hmk none, Except.ok.injEq] at ha
    rw [← ha]
  · intro summary a ha
    rw [hmk summary, Except.ok.injEq] at ha
    rw [← ha]
    match summary with
    | none => simp
    | some smr =>
      by_cases hs : smr = ""
      · simp [hs]
      · simp [hs]

/-- Witness for C9 at a concrete valid record. -/
theorem empty_summary_discarded_witness :
    ValidFields ("x") ("substantive") ("Alice") ∧
    ((∀ a, mkAmendment ("x") ("substantive") ("Alice") (some ("")) false ("t") =
        .ok a → a.summary = "No summary") ∧
      (∀ a, mkAmendment ("x") ("substantive") ("Alice") none false ("t") =
        .ok a → a.summary = "No summary") ∧
      (∀ summary a,
        mkAmendment ("x") ("substantive") ("Alice") summary false ("t") = .ok a →
          a.summary ≠ "")) :=
  ⟨by decide, empty_summary_discarded ("x") ("substantive") ("Alice") ("t") (by decide)⟩

/-- C10: the two `_calculate_hash` implementations are equivalent — on
amendments with equal field values and equal parent hashes they feed the same
canonical serialization to the digest primitive and so return the same
64-character lowercase-hex digest (the length/hex shape being the contract of
the `hexdigest` primitive). -/
theorem calculate_hash_implementations_agree (hashFn : String → String)
    (hdigest : ∀ t, (hashFn t).length = 64 ∧ IsHexString (hashFn t))
    (a : Amendment) (b : CUAmendment) (p : Option String)
    (hc : b.content = a.content) (hct : b.change_type = a.change_type)
    (hau : b.author = a.author) (hsm : b.summary = a.summary)
    (hts : b.timestamp = a.timestamp) :
    cuCalculateHash hashFn b p = calculate_hash hashFn a p ∧
    (cuCalculateHash hashFn b p).length = 64 ∧
    IsHexString (cuCalculateHash hashFn b p) := by
  have hser : cuSerializeNode b p = serializeNode a p := by
    unfold cuSerializeNode serializeNode
    rw [hc, hct, hau, hsm, hts]
  refine ⟨?_, ?_, ?_⟩
  · unfold cuCalculateHash calculate_hash
    rw [hser]
  · exact (hdigest _).1
  · exact (hdigest _).2

/-- The fixed 64-character hex string used to instantiate the digest contract
in the C10 witness. -/
def zeros64 : String := String.mk (List.replicate 64 '0')

/-- Witness for C10 at concrete field-equal amendments and a concrete digest
satisfying the hexdigest contract. -/
theorem calculate_hash_implementations_agree_witness :
    (∀ t, ((fun _ : String => zeros64) t).length = 64 ∧
        IsHexString ((fun _ : String => zeros64) t)) ∧
    (cuCalculateHash (fun _ : String => zeros64)
        ⟨"c", "substantive", "au", "ts", "sm"⟩ (some ("p")) =
      calculate_hash (fun _ : String => zeros64)
        ⟨"c", "substantive", "au", "ts", "sm"⟩ (some ("p")) ∧
      (cuCalculateHash (fun _ : String => zeros64)
        ⟨"c", "substantive", "au", "ts", "sm"⟩ (some ("p"))).length = 64 ∧
      IsHexString (cuCalculateHash (fun _ : String => zeros64)
        ⟨"c", "substantive", "au", "ts", "sm"⟩ (some ("p")))) := by
  have hlen : zeros64.length = 64 := by decide
  have hhex : IsHexString zeros64 := by decide
  have hdig : ∀ t : String, ((fun _ : String => zeros64) t).length = 64 ∧
      IsHexString ((fun _ : String => zeros64) t) := fun t => ⟨hlen, hhex⟩
  exact ⟨hdig,
    calculate_hash_implementations_agree (fun _ : String => zeros64) hdig
      ⟨"c", "substantive", "au", "ts", "sm"⟩
      ⟨"c", "substantive", "au", "ts", "sm"⟩ (some ("p")) rfl rfl rfl rfl rfl⟩


/-! ### Claim theorems: history rows -/

theorem historyRows_length (c : List ChainNode) :
    ∀ k, (historyRows k c).length = c.length := by
  induction c with
  | nil => intro k; rfl
  | cons n rest ih =>
    intro k
    simp only [historyRows, List.length_cons, ih (k + 1)]

theorem historyRows_get (c : List ChainNode) :
    ∀ (k i : Nat) (h : i < c.length) (h2 : i < (historyRows k c).length),
      (historyRows k c).get ⟨i, h2⟩ = historyRow (k + i) (c.get ⟨i, h⟩) := by
  induction c with
  | nil =>
    intro k i h h2
    simp at h
  | cons n rest ih =>
    intro k i h h2
    match i with
    | 0 => rfl
    | j + 1 =>
      have hj : j < rest.length := Nat.lt_of_succ_lt_succ h
      have hj2 : j < (historyRows (k + 1) rest).length := by
        rw [historyRows_length]
        exact hj
      have := ih (k + 1) j hj hj2
      simp only [historyRows, List.get_cons_succ]
      rw [this]
      congr 1
      omega

/-- C6 counterexample: on a concrete one-entry ledger, the top-level keys of
the history row are `version`, `hash`, `parent_hash` and `amendment` — the
record fields are nested under `amendment`, and neither `content` nor
`created_at` is a top-level key, contradicting the claimed flat shape. -/
theorem history_row_not_flat_counterexample :
    ((get_history (add_amendment constHash ⟨"ACT-1", "T", [], []⟩
        ⟨"A", "substantive", "Alice", "t1", "No summary"⟩).1).headD []).map
          Prod.fst =
      ["version", "hash", "parent_hash", "amendment"] ∧
    "content" ∉ ((get_history (add_amendment constHash ⟨"ACT-1", "T", [], []⟩
        ⟨"A", "substantive", "Alice", "t1", "No summary"⟩).1).headD []).map
          Prod.fst ∧
    "created_at" ∉ ((get_history (add_amendment constHash ⟨"ACT-1", "T", [], []⟩
        ⟨"A", "substantive", "Alice", "t1", "No summary"⟩).1).headD []).map
          Prod.fst := by
  refine ⟨by decide, by decide, by decide⟩

/-- C6 (amended): every `history()` row is a NESTED structure: its top-level
keys are exactly `version` (1-based position), `hash`, `parent_hash` and
`amendment`, and the record fields sit under `amendment` with keys `content`,
`change_type`, `author`, `summary` and `timestamp` (not `category` /
`created_at`). -/
theorem history_row_shape (s : HashChain) (i : Nat) (h : i < s.chain.length)
    (h2 : i < (get_history s).length) :
    ((get_history s).get ⟨i, h2⟩).map Prod.fst =
      ["version", "hash", "parent_hash", "amendment"] ∧
    (get_history s).get ⟨i, h2⟩ =
      [ ("version", PyVal.pint (i + 1))
      , ("hash", PyVal.pstr (s.chain.get ⟨i, h⟩).hash)
      , ("parent_hash", match (s.chain.get ⟨i, h⟩).parent_hash with
          | some p => PyVal.pstr p
          | none => PyVal.pnull)
      , ("amendment", PyVal.pdict
          [ ("content", PyVal.pstr (s.chain.get ⟨i, h⟩).amendment.content)
          , ("change_type", PyVal.pstr (s.chain.get ⟨i, h⟩).amendment.change_type)
          , ("author", PyVal.pstr (s.chain.get ⟨i, h⟩).amendment.author)
          , ("summary", PyVal.pstr (s.chain.get ⟨i, h⟩).amendment.summary)
          , ("timestamp", PyVal.pstr (s.chain.get ⟨i, h⟩).amendment.timestamp) ]) ] := by
  have heq : ((get_history s).get ⟨i, h2⟩) =
      historyRow (0 + i) (s.chain.get ⟨i, h⟩) := historyRows_get s.chain 0 i h h2
  rw [Nat.zero_add] at heq
  rw [heq]
  exact ⟨rfl, rfl⟩

/-- Witness for C6 at the first row of a concrete one-entry ledger. -/
theorem history_row_shape_witness :
    ((0 : Nat) < (add_amendment constHash ⟨"ACT-1", "T", [], []⟩
        ⟨"A", "substantive", "Alice", "t1", "No summary"⟩).1.chain.length ∧
      (0 : Nat) < (get_history (add_amendment constHash ⟨"ACT-1", "T", [], []⟩
        ⟨"A", "substantive", "Alice", "t1", "No summary"⟩).1).length) ∧
    ((get_history (add_amendment constHash ⟨"ACT-1", "T", [], []⟩
        ⟨"A", "substantive", "Alice", "t1", "No summary"⟩).1).get
          ⟨0, by decide⟩).map Prod.fst =
      ["version", "hash", "parent_hash", "amendment"] := by
  refine ⟨⟨by decide, by decide⟩, ?_⟩
  exact (history_row_shape
    (add_amendment constHash ⟨"ACT-1", "T", [], []⟩
      ⟨"A", "substantive", "Alice", "t1", "No summary"⟩).1 0
    (by decide) (by decide)).1


/-! ### Claim theorems: the Summarizer -/

theorem beforeLastSpace_eq_none (l : List Char) :
    beforeLastSpace l = none → ' ' ∉ l := by
  induction l with
  | nil =>
    intro _ hm
    cases hm
  | cons c rest ih =>
    intro h hm
    cases hb : beforeLastSpace rest with
    | some l2 =>
      simp only [beforeLastSpace, hb] at h
      exact Option.noConfusion h
    | none =>
      simp only [beforeLastSpace, hb] at h
      by_cases hc : c = ' '
      · rw [if_pos hc] at h
        exact Option.noConfusion h
      · rcases List.mem_cons.1 hm with hm1 | hm2
        · exact hc hm1.symm
        · exact ih hb hm2

theorem beforeLastSpace_eq_some (l : List Char) :
    ∀ pre, beforeLastSpace l = some pre →
      ∃ suf, l = pre ++ ' ' :: suf ∧ ' ' ∉ suf := by
  induction l with
  | nil =>
    intro pre h
    cases h
  | cons c rest ih =>
    intro pre h
    cases hb : beforeLastSpace rest with
    | some l2 =>
      simp only [beforeLastSpace, hb, Option.some.injEq] at h
      obtain ⟨suf, hsuf, hns⟩ := ih l2 hb
      refine ⟨suf, ?_, hns⟩
      rw [← h, hsuf]
      rfl
    | none =>
      simp only [beforeLastSpace, hb] at h
      by_cases hc : c = ' '
      · rw [if_pos hc] at h
        injection h with h2
        subst h2
        refine ⟨rest, ?_, beforeLastSpace_eq_none rest hb⟩
        rw [hc]
        rfl
      · rw [if_neg hc] at h
        cases h

theorem rsplitSpaceFirst_mk (l : List Char) :
    rsplitSpaceFirst (String.mk l) =
      match beforeLastSpace l with
      | some pre => String.mk pre
      | none => String.mk l := rfl

set_option maxRecDepth 100000 in
/-- C7 counterexample.  First, the blank-input sentinel is `"No content"`,
not `"no content"`.  Second, truncation cuts at the last SPACE (U+0020), not
at the last whitespace character: on an input whose only whitespace in the
first 200 characters is a tab at position 1, the claimed truncation would
yield `"a..."` (or `"a\t..."` keeping the boundary character), but the code
keeps the whole 200-character prefix. -/
theorem simplify_claim_counterexample :
    simplify ("") ≠ "no content" ∧
    pyStripIsEmpty ("a\t" ++ String.mk (List.replicate 250 'b')) = false ∧
    (substitute ("a\t" ++ String.mk (List.replicate 250 'b'))).length > 200 ∧
    simplify ("a\t" ++ String.mk (List.replicate 250 'b')) ≠ "a..." ∧
    simplify ("a\t" ++ String.mk (List.replicate 250 'b')) ≠ "a\t..." := by
  refine ⟨by decide, by decide, by decide, by decide, by decide⟩

/-- C7 (amended): blank input yields the sentinel `"No content"`; otherwise,
when the substituted result exceeds 200 characters, the returned summary is
the first 200 characters of that result with everything from the last
space (U+0020) onwards removed — the whole 200-character prefix when it
contains no space — followed by `"..."`; results of at most 200 characters
are returned unmodified. -/
theorem simplify_cases (text : String) :
    (pyStripIsEmpty text = true → simplify text = "No content") ∧
    (pyStripIsEmpty text = false → (substitute text).length > 200 →
      ((' ' ∉ (substitute text).toList.take 200 ∧
          simplify text =
            String.mk ((substitute text).toList.take 200) ++ "...") ∨
        (∃ pre suf, (substitute text).toList.take 200 = pre ++ ' ' :: suf ∧
          ' ' ∉ suf ∧ simplify text = String.mk pre ++ "..."))) ∧
    (pyStripIsEmpty text = false → ¬ ((substitute text).length > 200) →
      simplify text = substitute text) := by
  refine ⟨?_, ?_, ?_⟩
  · intro hb
    simp only [simplify, hb]
    rw [if_pos trivial]
  · intro hb hlen
    have hs : simplify text =
        rsplitSpaceFirst (String.mk ((substitute text).toList.take 200)) ++ "..." := by
      simp only [simplify, hb, Bool.false_eq_true, if_false, fallback_simplify]
      rw [if_pos hlen]
    rw [hs]
    cases hbls : beforeLastSpace ((substitute text).toList.take 200) with
    | none =>
      left
      refine ⟨beforeLastSpace_eq_none _ hbls, ?_⟩
      rw [rsplitSpaceFirst_mk, hbls]
    | some pre =>
      right
      obtain ⟨suf, hsuf, hns⟩ := beforeLastSpace_eq_some _ pre hbls
      refine ⟨pre, suf, hsuf, hns, ?_⟩
      rw [rsplitSpaceFirst_mk, hbls]
  · intro hb hlen
    simp only [simplify, hb, Bool.false_eq_true, if_false, fallback_simplify]
    rw [if_neg hlen]

set_option maxRecDepth 100000 in
/-- Witness for C7 (amended) at a concrete over-long input whose substituted
result is truncated at its last space. -/
theorem simplify_cases_witness :
    (pyStripIsEmpty ("ustawa " ++ String.mk (List.replicate 300 'x') ++
        " tail words here") = false ∧
      (substitute ("ustawa " ++ String.mk (List.replicate 300 'x') ++
        " tail words here")).length > 200) ∧
    ((' ' ∉ (substitute ("ustawa " ++ String.mk (List.replicate 300 'x') ++
          " tail words here")).toList.take 200 ∧
        simplify ("ustawa " ++ String.mk (List.replicate 300 'x') ++
            " tail words here") =
          String.mk ((substitute ("ustawa " ++ String.mk (List.replicate 300 'x')
            ++ " tail words here")).toList.take 200) ++ "...") ∨
      (∃ pre suf,
        (substitute ("ustawa " ++ String.mk (List.replicate 300 'x') ++
          " tail words here")).toList.take 200 = pre ++ ' ' :: suf ∧
        ' ' ∉ suf ∧
        simplify ("ustawa " ++ String.mk (List.replicate 300 'x') ++
            " tail words here") = String.mk pre ++ "...")) := by
  refine ⟨⟨by decide, by decide⟩, ?_⟩
  exact (simplify_cases ("ustawa " ++ String.mk (List.replicate 300 'x') ++
    " tail words here")).2.1 (by decide) (by decide)

end LegalTracker
